import Mathlib

/-!
Formal development of the orchestration logic of the Valohai-MONAI
liver-segmentation pipeline: the metric/checkpoint selector and training
loop of `train.py` (`train_model`), the dataset partitioners of
`train.py` (`get_data_loaders`) and `preprocess.py`
(`preprocess_train_val`), the CLI flag surface (`parse_args`), the
filesystem effects of checkpointing, and the output naming of the
inference driver (`inference.py`, `run_inference`).

Python floats appearing in the orchestration logic (Dice scores, losses)
are modelled as rationals; file names are modelled as lists of
characters or as elements of a linear order where only their sort order
matters.
-/

namespace ValohaiMonai

/-! ## Metric & checkpoint selector (train.py lines 87-88 and 171-199)

`train_model` keeps `best_dice_score` (initially `-1`), `best_dice_epoch`
(initially `-1`) and a single persisted snapshot file `model.pth`.
After each validation pass it aggregates the epoch's mean Dice into
`dice_score` and runs `if dice_score > best_dice_score:` — on success it
stores the new best score, the 1-based epoch number `epoch + 1`, and
overwrites the snapshot with the current model state. -/

/-- State of the checkpoint selector: the in-memory best score and best
epoch of train.py lines 87-88, plus the epoch number whose model state
currently sits in the single persisted snapshot file (`none` before the
first save). -/
structure SelState where
  best_dice_score : ℚ
  best_dice_epoch : ℤ
  saved : Option ℕ
deriving DecidableEq

/-- train.py lines 87-88: `best_dice_score = -1`, `best_dice_epoch = -1`;
no snapshot has been written yet. -/
def selInit : SelState :=
  { best_dice_score := -1, best_dice_epoch := -1, saved := none }

/-- train.py lines 177-190: one execution of the
`if dice_score > best_dice_score:` block with the aggregated mean Dice
`dice` of the validation pass at (1-based) epoch `epoch1`. -/
def selStep (s : SelState) (epoch1 : ℕ) (dice : ℚ) : SelState :=
  if s.best_dice_score < dice then
    { best_dice_score := dice, best_dice_epoch := (epoch1 : ℤ), saved := some epoch1 }
  else s

/-- Runs the selector over successive validation scores, the first one
carrying 1-based epoch number `k`. -/
def runSelectorFrom (s : SelState) (k : ℕ) : List ℚ → SelState
  | [] => s
  | d :: ds => runSelectorFrom (selStep s k d) (k + 1) ds

/-- The selector applied to a sequence of per-epoch validation Dice
means, positions being 1-based epoch numbers. -/
def runSelector (ds : List ℚ) : SelState :=
  runSelectorFrom selInit 1 ds

/-- 0-based position of the first occurrence of `m` in a list (length of
the list when absent). -/
def firstIdx (m : ℚ) : List ℚ → ℕ
  | [] => 0
  | d :: ds => if d = m then 0 else firstIdx m ds + 1

lemma le_foldl_max (a : ℚ) (l : List ℚ) : a ≤ l.foldl max a := by
  induction l generalizing a with
  | nil => exact le_refl a
  | cons d ds ih => exact le_trans (le_max_left a d) (ih (max a d))

lemma mem_le_foldl_max (a : ℚ) (l : List ℚ) : ∀ d ∈ l, d ≤ l.foldl max a := by
  induction l generalizing a with
  | nil => intro d hd; cases hd
  | cons x xs ih =>
    intro d hd
    rcases List.mem_cons.mp hd with h | h
    · subst h
      exact le_trans (le_max_right a d) (le_foldl_max _ _)
    · exact ih (max a x) d h

lemma foldl_max_of_le (a : ℚ) (l : List ℚ) (h : ∀ x ∈ l, x ≤ a) :
    l.foldl max a = a := by
  induction l generalizing a with
  | nil => rfl
  | cons x xs ih =>
    rw [List.foldl_cons, max_eq_left (h x (List.mem_cons_self x xs))]
    exact ih a (fun y hy => h y (List.mem_cons_of_mem x hy))

lemma foldl_max_cases (a : ℚ) (l : List ℚ) :
    l.foldl max a = a ∨ l.foldl max a ∈ l := by
  induction l generalizing a with
  | nil => exact Or.inl rfl
  | cons x xs ih =>
    rw [List.foldl_cons]
    rcases ih (max a x) with h | h
    · rcases max_choice a x with h' | h'
      · exact Or.inl (by rw [h, h'])
      · refine Or.inr ?_
        rw [h, h']
        exact List.mem_cons_self x xs
    · exact Or.inr (List.mem_cons_of_mem x h)

lemma runSelectorFrom_score (s : SelState) (k : ℕ) (l : List ℚ) :
    (runSelectorFrom s k l).best_dice_score = l.foldl max s.best_dice_score := by
  induction l generalizing s k with
  | nil => rfl
  | cons d ds ih =>
    rw [runSelectorFrom, List.foldl_cons, ih]
    unfold selStep
    by_cases h : s.best_dice_score < d
    · rw [if_pos h, max_eq_right (le_of_lt h)]
    · rw [if_neg h, max_eq_left (le_of_not_lt h)]

lemma runSelectorFrom_stall (s : SelState) (k : ℕ) (l : List ℚ)
    (h : ∀ d ∈ l, d ≤ s.best_dice_score) : runSelectorFrom s k l = s := by
  induction l generalizing k with
  | nil => rfl
  | cons d ds ih =>
    rw [runSelectorFrom]
    have hd : ¬ s.best_dice_score < d :=
      not_lt.mpr (h d (List.mem_cons_self d ds))
    rw [selStep, if_neg hd]
    exact ih (k + 1) (fun x hx => h x (List.mem_cons_of_mem d hx))

lemma runSelectorFrom_best (s : SelState) (k : ℕ) (l : List ℚ)
    (h : s.best_dice_score < l.foldl max s.best_dice_score) :
    (runSelectorFrom s k l).best_dice_epoch
        = ((k + firstIdx (l.foldl max s.best_dice_score) l : ℕ) : ℤ) ∧
    (runSelectorFrom s k l).saved
        = some (k + firstIdx (l.foldl max s.best_dice_score) l) := by
  induction l generalizing s k with
  | nil => exact absurd h (lt_irrefl _)
  | cons d ds ih =>
    rw [List.foldl_cons] at h ⊢
    rw [runSelectorFrom]
    by_cases hlt : s.best_dice_score < d
    · have hmax : max s.best_dice_score d = d := max_eq_right (le_of_lt hlt)
      rw [hmax] at h ⊢
      have hstep : selStep s k d =
          { best_dice_score := d, best_dice_epoch := (k : ℤ), saved := some k } := by
        rw [selStep, if_pos hlt]
      rw [hstep]
      by_cases hall : ∀ x ∈ ds, x ≤ d
      · -- the head is the overall maximum: everything after stalls
        have hm : ds.foldl max d = d := foldl_max_of_le d ds hall
        have hstall : runSelectorFrom
            { best_dice_score := d, best_dice_epoch := (k : ℤ), saved := some k }
            (k + 1) ds =
            { best_dice_score := d, best_dice_epoch := (k : ℤ), saved := some k } :=
          runSelectorFrom_stall _ _ _ hall
        rw [hstall, hm]
        have hidx : firstIdx d (d :: ds) = 0 := by
          simp [firstIdx]
        rw [hidx]
        exact ⟨by norm_num, by norm_num⟩
      · -- some later score exceeds the head
        push_neg at hall
        obtain ⟨x, hx, hdx⟩ := hall
        have hd2 : d < ds.foldl max d :=
          lt_of_lt_of_le hdx (mem_le_foldl_max d ds x hx)
        have := ih { best_dice_score := d, best_dice_epoch := (k : ℤ), saved := some k }
          (k + 1) hd2
        dsimp only at this
        have hne : d ≠ ds.foldl max d := ne_of_lt hd2
        have hidx : firstIdx (ds.foldl max d) (d :: ds)
            = firstIdx (ds.foldl max d) ds + 1 := by
          simp only [firstIdx, if_neg hne]
        rw [hidx]
        refine ⟨?_, ?_⟩
        · rw [this.1]
          congr 1
          omega
        · rw [this.2]
          congr 1
          omega
    · -- the head does not improve the best
      have hmax : max s.best_dice_score d = s.best_dice_score :=
        max_eq_left (le_of_not_lt hlt)
      rw [hmax] at h ⊢
      have hstep : selStep s k d = s := by rw [selStep, if_neg hlt]
      rw [hstep]
      have hne : d ≠ ds.foldl max s.best_dice_score :=
        ne_of_lt (lt_of_le_of_lt (le_of_not_lt hlt) h)
      have := ih s (k + 1) h
      have hidx : firstIdx (ds.foldl max s.best_dice_score) (d :: ds)
          = firstIdx (ds.foldl max s.best_dice_score) ds + 1 := by
        simp only [firstIdx, if_neg hne]
      rw [hidx]
      refine ⟨?_, ?_⟩
      · rw [this.1]
        congr 1
        omega
      · rw [this.2]
        congr 1
        omega

lemma firstIdx_getElem {m : ℚ} {l : List ℚ} (hm : m ∈ l) :
    l[firstIdx m l]? = some m := by
  induction l with
  | nil => cases hm
  | cons d ds ih =>
    by_cases hd : d = m
    · subst hd
      simp [firstIdx]
    · have hmem : m ∈ ds := by
        rcases List.mem_cons.mp hm with h | h
        · exact absurd h.symm hd
        · exact h
      simp only [firstIdx, if_neg hd, List.getElem?_cons_succ]
      exact ih hmem

/-- C1: the checkpoint selector starts from the sentinel `-1` (below any
valid Dice), replaces the best score, best-epoch number and persisted
snapshot exactly when the new epoch's Dice mean is strictly greater than
the best seen so far (ties do not replace, so the earliest occurrence of
the maximum wins); on `[0.5, 0.7, 0.6, 0.9, 0.8]` the retained best is
`0.9` at 1-indexed epoch 4, and on `[0.7, 0.7]` the best epoch stays at
the first occurrence. -/
theorem c1_checkpoint_selector_strict_greater (scores : List ℚ) :
    selInit.best_dice_score = -1 ∧ selInit.saved = none ∧
    (∀ (s : SelState) (k : ℕ) (d : ℚ), s.best_dice_score < d →
        selStep s k d =
          { best_dice_score := d, best_dice_epoch := (k : ℤ), saved := some k }) ∧
    (∀ (s : SelState) (k : ℕ) (d : ℚ), d ≤ s.best_dice_score → selStep s k d = s) ∧
    (-1 < scores.foldl max (-1) →
        (runSelector scores).best_dice_score = scores.foldl max (-1) ∧
        (runSelector scores).best_dice_epoch
          = ((firstIdx (scores.foldl max (-1)) scores + 1 : ℕ) : ℤ)) ∧
    runSelector [1/2, 7/10, 3/5, 9/10, 4/5] =
      { best_dice_score := 9/10, best_dice_epoch := 4, saved := some 4 } ∧
    runSelector [7/10, 7/10] =
      { best_dice_score := 7/10, best_dice_epoch := 1, saved := some 1 } := by
  have hinit : selInit.best_dice_score = -1 := rfl
  refine ⟨rfl, rfl, ?_, ?_, ?_, ?_, ?_⟩
  · intro s k d h
    rw [selStep, if_pos h]
  · intro s k d h
    rw [selStep, if_neg (not_lt.mpr h)]
  · intro h
    have h' : selInit.best_dice_score < scores.foldl max selInit.best_dice_score := by
      rw [hinit]; exact h
    obtain ⟨he, -⟩ := runSelectorFrom_best selInit 1 scores h'
    rw [hinit] at he
    constructor
    · rw [runSelector, runSelectorFrom_score, hinit]
    · rw [runSelector, he]
      congr 1
      omega
  · norm_num [runSelector, runSelectorFrom, selStep, selInit]
  · norm_num [runSelector, runSelectorFrom, selStep, selInit]

/-- Witness for C1: the selector theorem instantiated on the spec's
example sequence `[0.5, 0.7, 0.6, 0.9, 0.8]`. -/
theorem c1_checkpoint_selector_strict_greater_witness :
    selInit.best_dice_score < 1/2 ∧
    selStep selInit 1 (1/2) =
      { best_dice_score := 1/2, best_dice_epoch := 1, saved := some 1 } ∧
    (-1 : ℚ) < [(1 : ℚ)/2, 7/10, 3/5, 9/10, 4/5].foldl max (-1) ∧
    (runSelector [1/2, 7/10, 3/5, 9/10, 4/5]).best_dice_score
      = [(1 : ℚ)/2, 7/10, 3/5, 9/10, 4/5].foldl max (-1) ∧
    (runSelector [1/2, 7/10, 3/5, 9/10, 4/5]).best_dice_epoch
      = ((firstIdx ([(1 : ℚ)/2, 7/10, 3/5, 9/10, 4/5].foldl max (-1))
            [1/2, 7/10, 3/5, 9/10, 4/5] + 1 : ℕ) : ℤ) := by
  have h1 : selInit.best_dice_score < 1/2 := by
    rw [show selInit.best_dice_score = -1 from rfl]
    norm_num
  have h2 : (-1 : ℚ) < [(1 : ℚ)/2, 7/10, 3/5, 9/10, 4/5].foldl max (-1) := by
    refine lt_of_lt_of_le (show (-1 : ℚ) < 9/10 by norm_num) ?_
    exact mem_le_foldl_max (-1) _ (9/10) (by norm_num)
  obtain ⟨-, -, hpos, -, hgen, -, -⟩ :=
    c1_checkpoint_selector_strict_greater [1/2, 7/10, 3/5, 9/10, 4/5]
  exact ⟨h1, hpos selInit 1 (1/2) h1, h2, (hgen h2).1, (hgen h2).2⟩

/-- C2: at every point of the run (i.e. after any list of validation
scores), the persisted snapshot — a single overwritten cell — holds the
model of the epoch achieving the highest Dice seen so far, not the most
recent epoch, while the in-memory best score and best epoch are kept;
e.g. after scores `[0.9, 0.5]` the snapshot is epoch 1, not epoch 2. -/
theorem c2_persisted_checkpoint_invariant (scores : List ℚ) :
    ((runSelector scores).saved = none ↔ scores.foldl max (-1) = -1) ∧
    (∀ e : ℕ, (runSelector scores).saved = some e →
        ((e : ℤ) = (runSelector scores).best_dice_epoch ∧
         scores[e - 1]? = some ((runSelector scores).best_dice_score) ∧
         ∀ d ∈ scores, d ≤ (runSelector scores).best_dice_score)) ∧
    runSelector [9/10, 1/2] =
      { best_dice_score := 9/10, best_dice_epoch := 1, saved := some 1 } := by
  have hinit : selInit.best_dice_score = -1 := rfl
  have hm1 : (-1 : ℚ) ≤ scores.foldl max (-1) := le_foldl_max _ _
  refine ⟨?_, ?_, ?_⟩
  · by_cases hmax : scores.foldl max (-1) = -1
    · have hstall : runSelector scores = selInit := by
        apply runSelectorFrom_stall
        intro d hd
        rw [hinit, ← hmax]
        exact mem_le_foldl_max (-1) scores d hd
      rw [hstall]
      exact ⟨fun _ => hmax, fun _ => rfl⟩
    · have hlt : selInit.best_dice_score < scores.foldl max selInit.best_dice_score := by
        rw [hinit]
        exact lt_of_le_of_ne hm1 (Ne.symm hmax)
      obtain ⟨-, hs⟩ := runSelectorFrom_best selInit 1 scores hlt
      rw [show runSelectorFrom selInit 1 scores = runSelector scores from rfl] at hs
      rw [hs]
      simp [hmax]
  · intro e hse
    by_cases hmax : scores.foldl max (-1) = -1
    · have hstall : runSelector scores = selInit := by
        apply runSelectorFrom_stall
        intro d hd
        rw [hinit, ← hmax]
        exact mem_le_foldl_max (-1) scores d hd
      rw [hstall] at hse
      cases hse
    · have hlt : selInit.best_dice_score < scores.foldl max selInit.best_dice_score := by
        rw [hinit]
        exact lt_of_le_of_ne hm1 (Ne.symm hmax)
      obtain ⟨he, hs⟩ := runSelectorFrom_best selInit 1 scores hlt
      rw [hinit] at he hs
      rw [show runSelectorFrom selInit 1 scores = runSelector scores from rfl] at he hs
      have hm_mem : scores.foldl max (-1) ∈ scores := by
        rcases foldl_max_cases (-1) scores with h | h
        · exact absurd h hmax
        · exact h
      have hscore : (runSelector scores).best_dice_score = scores.foldl max (-1) := by
        rw [runSelector, runSelectorFrom_score, hinit]
      rw [hs] at hse
      have heq : e = 1 + firstIdx (scores.foldl max (-1)) scores :=
        (Option.some_injective _ hse).symm
      refine ⟨?_, ?_, ?_⟩
      · rw [he, heq]
      · have : e - 1 = firstIdx (scores.foldl max (-1)) scores := by omega
        rw [this, hscore]
        exact firstIdx_getElem hm_mem
      · intro d hd
        rw [hscore]
        exact mem_le_foldl_max (-1) scores d hd
  · norm_num [runSelector, runSelectorFrom, selStep, selInit]

/-- Witness for C2: after the concrete scores `[0.9, 0.5]` the snapshot
is the epoch-1 model, which carries the highest score seen so far even
though epoch 2 is more recent. -/
theorem c2_persisted_checkpoint_invariant_witness :
    (runSelector [9/10, 1/2]).saved = some 1 ∧
    ((1 : ℕ) : ℤ) = (runSelector [9/10, 1/2]).best_dice_epoch ∧
    [(9 : ℚ)/10, 1/2][1 - 1]? = some ((runSelector [9/10, 1/2]).best_dice_score) := by
  have hconc := (c2_persisted_checkpoint_invariant [9/10, 1/2]).2.2
  have hsaved : (runSelector [9/10, 1/2]).saved = some 1 := by rw [hconc]
  have h := (c2_persisted_checkpoint_invariant [9/10, 1/2]).2.1 1 hsaved
  exact ⟨hsaved, h.1, h.2.1⟩

/-! ## Training loop controller (train.py lines 94-199)

The loop is embedded with the tensor-level operations opaque: `P` is the
type of the model-and-optimizer state (mutated only by the per-batch
`stepFn`, i.e. forward/backward/`optimizer.step()`), `B` the type of a
batch, `lossItem p b` the scalar `loss.item()` computed from the
pre-update state, and `valScore p` the aggregated mean Dice that a full
validation pass (sliding-window inference plus `DiceMetric`) produces
from state `p`. -/

/-- Observable state of one training run: current model/optimizer state,
the `epoch_loss_values` and `dice_values` logs, the checkpoint-selector
state and the sequence of epochs at which `model.pth` was (over)written. -/
structure LoopState (P : Type) where
  params : P
  epoch_loss_values : List ℚ
  dice_values : List ℚ
  sel : SelState
  saves : List ℕ

/-- train.py lines 87-90: state at entry of the epoch loop. -/
def loopInit {P : Type} (p0 : P) : LoopState P :=
  { params := p0, epoch_loss_values := [], dice_values := [], sel := selInit, saves := [] }

/-- train.py lines 96-116: the inner batch loop; the accumulator is
`(model, epoch_loss, step)`. `loss` is computed from the pre-update
parameters, then backward/step updates them, then `epoch_loss += loss.item()`. -/
def runBatches {P B : Type} (stepFn : P → B → P) (lossItem : P → B → ℚ) :
    List B → P × ℚ × ℕ → P × ℚ × ℕ
  | [], acc => acc
  | b :: bs, (p, el, st) => runBatches stepFn lossItem bs (stepFn p b, el + lossItem p b, st + 1)

/-- train.py line 129: `if (epoch + 1) % 5 == 0:` — the cadence literal 5
is hardcoded; it is not read from any CLI flag. -/
def isValidationEpoch (epoch : ℕ) : Bool := (epoch + 1) % 5 == 0

/-- train.py lines 94-199: one iteration of `for epoch in range(num_epochs)`.
After the batch loop, `epoch_loss /= step` is logged; on validation
epochs the aggregated Dice is appended to `dice_values` and the
checkpoint selector (`selStep`) runs, writing `model.pth` exactly when
the score strictly improves. -/
def runEpoch {P B : Type} (stepFn : P → B → P) (lossItem : P → B → ℚ)
    (valScore : P → ℚ) (batches : ℕ → List B) (s : LoopState P) (epoch : ℕ) :
    LoopState P :=
  let r := runBatches stepFn lossItem (batches epoch) (s.params, 0, 0)
  let s1 : LoopState P :=
    { s with
      params := r.1,
      epoch_loss_values := s.epoch_loss_values ++ [r.2.1 / (r.2.2 : ℚ)] }
  if isValidationEpoch epoch then
    { s1 with
      dice_values := s1.dice_values ++ [valScore r.1],
      sel := selStep s1.sel (epoch + 1) (valScore r.1),
      saves := if s1.sel.best_dice_score < valScore r.1
               then s1.saves ++ [epoch + 1] else s1.saves }
  else s1

/-- train.py `train_model`: the full epoch loop. -/
def train_model {P B : Type} (stepFn : P → B → P) (lossItem : P → B → ℚ)
    (valScore : P → ℚ) (batches : ℕ → List B) (p0 : P) (num_epochs : ℕ) :
    LoopState P :=
  (List.range num_epochs).foldl (runEpoch stepFn lossItem valScore batches) (loopInit p0)

/-- The epochs (0-based) of an `num_epochs`-epoch run at which the
validation branch executes. -/
def validationEpochs (num_epochs : ℕ) : List ℕ :=
  (List.range num_epochs).filter isValidationEpoch

lemma runBatches_params {P B : Type} (f : P → B → P) (li : P → B → ℚ)
    (bs : List B) : ∀ p el st, (runBatches f li bs (p, el, st)).1 = bs.foldl f p := by
  induction bs with
  | nil => intro p el st; rfl
  | cons b bs ih =>
    intro p el st
    rw [runBatches, List.foldl_cons]
    exact ih (f p b) (el + li p b) (st + 1)

lemma train_model_succ {P B : Type} (f : P → B → P) (li : P → B → ℚ)
    (v : P → ℚ) (bat : ℕ → List B) (p0 : P) (n : ℕ) :
    train_model f li v bat p0 (n + 1)
      = runEpoch f li v bat (train_model f li v bat p0 n) n := by
  rw [train_model, train_model, List.range_succ, List.foldl_append,
    List.foldl_cons, List.foldl_nil]

lemma runEpoch_params {P B : Type} (f : P → B → P) (li : P → B → ℚ)
    (v : P → ℚ) (bat : ℕ → List B) (s : LoopState P) (e : ℕ) :
    (runEpoch f li v bat s e).params = (bat e).foldl f s.params := by
  rw [runEpoch]
  by_cases h : isValidationEpoch e
  · simp only [if_pos h]
    exact runBatches_params f li (bat e) s.params 0 0
  · simp only [if_neg h]
    exact runBatches_params f li (bat e) s.params 0 0

lemma runEpoch_dice_length {P B : Type} (f : P → B → P) (li : P → B → ℚ)
    (v : P → ℚ) (bat : ℕ → List B) (s : LoopState P) (e : ℕ) :
    (runEpoch f li v bat s e).dice_values.length
      = s.dice_values.length + (if isValidationEpoch e then 1 else 0) := by
  rw [runEpoch]
  by_cases h : isValidationEpoch e
  · simp [if_pos h]
  · simp [if_neg h]

lemma runEpoch_obs {P B : Type} (f : P → B → P) (li1 li2 : P → B → ℚ)
    (v : P → ℚ) (bat : ℕ → List B) (s t : LoopState P) (e : ℕ)
    (hp : s.params = t.params) (hd : s.dice_values = t.dice_values)
    (hs : s.sel = t.sel) (hv : s.saves = t.saves) :
    (runEpoch f li1 v bat s e).params = (runEpoch f li2 v bat t e).params ∧
    (runEpoch f li1 v bat s e).dice_values = (runEpoch f li2 v bat t e).dice_values ∧
    (runEpoch f li1 v bat s e).sel = (runEpoch f li2 v bat t e).sel ∧
    (runEpoch f li1 v bat s e).saves = (runEpoch f li2 v bat t e).saves := by
  have h1 : (runBatches f li1 (bat e) (s.params, 0, 0)).1
      = (runBatches f li2 (bat e) (t.params, 0, 0)).1 := by
    rw [runBatches_params, runBatches_params, hp]
  have h2 : v (runBatches f li1 (bat e) (s.params, 0, 0)).1
      = v (runBatches f li2 (bat e) (t.params, 0, 0)).1 := by rw [h1]
  by_cases h : isValidationEpoch e
  · simp only [runEpoch, if_pos h]
    refine ⟨h1, ?_, ?_, ?_⟩
    · rw [hd, h2]
    · rw [hs, h2]
    · rw [hs, hv, h2]
  · simp only [runEpoch, if_neg h]
    exact ⟨h1, hd, hs, hv⟩

lemma validationEpochs_length (n : ℕ) : (validationEpochs n).length = n / 5 := by
  induction n with
  | zero => rfl
  | succ n ih =>
    rw [validationEpochs, List.range_succ, List.filter_append, List.length_append,
      show (List.range n).filter isValidationEpoch = validationEpochs n from rfl, ih]
    by_cases h : isValidationEpoch n
    · have hm : (n + 1) % 5 = 0 := by simpa [isValidationEpoch] using h
      simp only [List.filter, h, List.length_cons, List.length_nil]
      omega
    · have hm : (n + 1) % 5 ≠ 0 := by simpa [isValidationEpoch] using h
      simp only [List.filter, h, List.length_nil]
      omega

lemma train_model_dice_length {P B : Type} (f : P → B → P) (li : P → B → ℚ)
    (v : P → ℚ) (bat : ℕ → List B) (p0 : P) (n : ℕ) :
    (train_model f li v bat p0 n).dice_values.length = n / 5 := by
  induction n with
  | zero => rfl
  | succ n ih =>
    rw [train_model_succ, runEpoch_dice_length, ih]
    by_cases h : isValidationEpoch n
    · have hm : (n + 1) % 5 = 0 := by simpa [isValidationEpoch] using h
      rw [if_pos h]
      omega
    · have hm : (n + 1) % 5 ≠ 0 := by simpa [isValidationEpoch] using h
      rw [if_neg h]
      omega

lemma train_model_params {P B : Type} (f : P → B → P) (li : P → B → ℚ)
    (v : P → ℚ) (bat : ℕ → List B) (p0 : P) (n : ℕ) :
    (train_model f li v bat p0 n).params
      = (List.range n).foldl (fun p e => (bat e).foldl f p) p0 := by
  induction n with
  | zero => rfl
  | succ n ih =>
    rw [train_model_succ, runEpoch_params, ih, List.range_succ, List.foldl_append,
      List.foldl_cons, List.foldl_nil]

/-- C9: the per-epoch running mean loss is pure observability — replacing
the scalar loss value fed into the `epoch_loss` accumulator by any other
function changes neither the final model parameters, nor the recorded
Dice values, nor the checkpoint-selector state, nor which epochs wrote a
checkpoint. -/
theorem c9_running_mean_loss_pure_observability {P B : Type}
    (stepFn : P → B → P) (lossItem lossItem2 : P → B → ℚ) (valScore : P → ℚ)
    (batches : ℕ → List B) (p0 : P) (num_epochs : ℕ) :
    (train_model stepFn lossItem valScore batches p0 num_epochs).params
      = (train_model stepFn lossItem2 valScore batches p0 num_epochs).params ∧
    (train_model stepFn lossItem valScore batches p0 num_epochs).dice_values
      = (train_model stepFn lossItem2 valScore batches p0 num_epochs).dice_values ∧
    (train_model stepFn lossItem valScore batches p0 num_epochs).sel
      = (train_model stepFn lossItem2 valScore batches p0 num_epochs).sel ∧
    (train_model stepFn lossItem valScore batches p0 num_epochs).saves
      = (train_model stepFn lossItem2 valScore batches p0 num_epochs).saves := by
  induction num_epochs with
  | zero => exact ⟨rfl, rfl, rfl, rfl⟩
  | succ n ih =>
    rw [train_model_succ, train_model_succ]
    exact runEpoch_obs stepFn lossItem lossItem2 valScore batches _ _ n
      ih.1 ih.2.1 ih.2.2.1 ih.2.2.2

/-! ## CLI surface of the training driver (train.py lines 33-45)

`parse_args` declares eight flags. All but `--channels` carry an explicit
`default=`; `--channels` has none, so argparse assigns it Python's
`None` when the flag is omitted. Its `type=` is
`lambda s: list(map(int, s.split(',')))`, so a non-integer token raises
inside the type callback and argparse reports a parse-time error. -/

/-- One argparse flag: its name and its default value (rendered as the
literal text from the source; `none` models argparse's implicit `None`
for a flag declared without `default=`). -/
structure CliFlag where
  name : String
  defaultVal : Option String
deriving DecidableEq

/-- train.py lines 34-44: the flags of the training driver, in
declaration order. -/
def trainFlags : List CliFlag :=
  [ { name := "batch_size", defaultVal := some "2" },
    { name := "epochs", defaultVal := some "10" },
    { name := "lr", defaultVal := some "1e-4" },
    { name := "ckpt", defaultVal := some "checkpoints" },
    { name := "in_channels", defaultVal := some "1" },
    { name := "out_channels", defaultVal := some "3" },
    { name := "num_res_units", defaultVal := some "2" },
    { name := "channels", defaultVal := none } ]

/-- Following the spec's words, for comparison with the code (C5): with a
configurable cadence `K`, an `N`-epoch run would perform `N / K`
validation passes. -/
def specValidationCount (K N : ℕ) : ℕ := N / K

/-- C5 counterexample: the cadence is not configurable. The training
driver's CLI surface consists of exactly the eight flags below — none
sets the validation cadence — and a 4-epoch run performs 0 validation
passes (the hardcoded `(epoch + 1) % 5 == 0`), whereas the spec's
configurable cadence at `K = 2` would give 2. -/
theorem c5_validation_cadence_counterexample :
    trainFlags.map CliFlag.name =
      ["batch_size", "epochs", "lr", "ckpt", "in_channels", "out_channels",
       "num_res_units", "channels"] ∧
    (validationEpochs 4).length = 0 ∧
    specValidationCount 2 4 = 2 ∧
    (validationEpochs 4).length ≠ specValidationCount 2 4 := by
  refine ⟨rfl, by decide, by decide, by decide⟩

/-- C5 (amended): the validation cadence is the hardcoded constant 5
(`(epoch + 1) % 5 == 0`), not a configurable `K`: an `N`-epoch run
performs exactly `⌊N/5⌋` validation passes (a 5-epoch run exactly one,
at the fifth epoch), and validation updates no model parameter — the
final parameters equal those of the bare per-batch training fold. -/
theorem c5_validation_every_five_epochs {P B : Type}
    (stepFn : P → B → P) (lossItem : P → B → ℚ) (valScore : P → ℚ)
    (batches : ℕ → List B) (p0 : P) (num_epochs : ℕ) :
    (validationEpochs num_epochs).length = num_epochs / 5 ∧
    validationEpochs 5 = [4] ∧
    (train_model stepFn lossItem valScore batches p0 num_epochs).dice_values.length
      = num_epochs / 5 ∧
    (train_model stepFn lossItem valScore batches p0 num_epochs).params
      = (List.range num_epochs).foldl (fun p e => (batches e).foldl stepFn p) p0 := by
  exact ⟨validationEpochs_length num_epochs, by decide,
    train_model_dice_length stepFn lossItem valScore batches p0 num_epochs,
    train_model_params stepFn lossItem valScore batches p0 num_epochs⟩

/-! ## Filesystem effects of checkpointing (train.py lines 74, 182-190)

`train_model` touches the filesystem in exactly two ways: line 74 runs
`os.makedirs(ckpt_path, exist_ok=True)` on the `--ckpt` argument, and a
new best Dice writes `torch.save(...)` to `valohai.outputs().path('model.pth')`
followed by its metadata sidecar `model.pth.metadata.json`. The
`ckpt_path` argument is used nowhere else. -/

/-- A filesystem effect of the training driver. -/
inductive FsEff where
  | mkdirEff (path : String)
  | writeEff (path : String)
deriving DecidableEq

/-- Model of `valohai.outputs().path(name)`: a path under the platform's
outputs directory, a function of `name` only. -/
def valohaiOutputsPath (nm : String) : String := "VH_OUTPUTS_DIR/" ++ nm

/-- Whether an effect is a file write. -/
def isWriteEff : FsEff → Bool
  | .writeEff _ => true
  | .mkdirEff _ => false

/-- The filesystem effects of one `train_model` run whose checkpoint
saves happened at the epochs in `saves`: the `mkdir` of line 74, then
per save the snapshot write and its metadata sidecar (lines 182-190). -/
def train_model_fs_effects (ckpt_path : String) (saves : List ℕ) : List FsEff :=
  FsEff.mkdirEff ckpt_path ::
    saves.foldr (fun _ acc =>
      FsEff.writeEff (valohaiOutputsPath "model.pth") ::
      FsEff.writeEff (valohaiOutputsPath "model.pth" ++ ".metadata.json") :: acc) []

/-- The filesystem effects of the full training run. -/
def train_model_fs {P B : Type} (ckpt_path : String) (stepFn : P → B → P)
    (lossItem : P → B → ℚ) (valScore : P → ℚ) (batches : ℕ → List B)
    (p0 : P) (num_epochs : ℕ) : List FsEff :=
  train_model_fs_effects ckpt_path
    (train_model stepFn lossItem valScore batches p0 num_epochs).saves

lemma fs_effects_filter (ckpt : String) (saves : List ℕ) :
    (train_model_fs_effects ckpt saves).filter isWriteEff
      = saves.foldr (fun _ acc =>
          FsEff.writeEff (valohaiOutputsPath "model.pth") ::
          FsEff.writeEff (valohaiOutputsPath "model.pth" ++ ".metadata.json") :: acc) [] := by
  rw [train_model_fs_effects]
  induction saves with
  | nil => rfl
  | cons e es ih =>
    simp only [List.foldr_cons, List.filter_cons] at ih ⊢
    simpa [isWriteEff] using ih

/-- C10: the `--ckpt` directory is created but never written to — every
write of a run targets the platform outputs path `model.pth` (or its
metadata sidecar) regardless of the `ckpt_path` argument, so two runs
differing only in `--ckpt` produce identical write sequences; the only
ckpt-dependent effect is the initial `mkdir`. -/
theorem c10_ckpt_dir_created_never_written {P B : Type}
    (ckpt1 ckpt2 : String) (stepFn : P → B → P) (lossItem : P → B → ℚ)
    (valScore : P → ℚ) (batches : ℕ → List B) (p0 : P) (num_epochs : ℕ) :
    (train_model_fs ckpt1 stepFn lossItem valScore batches p0 num_epochs).filter isWriteEff
      = (train_model_fs ckpt2 stepFn lossItem valScore batches p0 num_epochs).filter isWriteEff ∧
    train_model_fs ckpt1 stepFn lossItem valScore batches p0 num_epochs
      = FsEff.mkdirEff ckpt1 ::
          (train_model_fs ckpt1 stepFn lossItem valScore batches p0 num_epochs).filter isWriteEff ∧
    (train_model_fs ckpt1 stepFn lossItem valScore batches p0 num_epochs).filter isWriteEff
      = (train_model stepFn lossItem valScore batches p0 num_epochs).saves.foldr
          (fun _ acc =>
            FsEff.writeEff (valohaiOutputsPath "model.pth") ::
            FsEff.writeEff (valohaiOutputsPath "model.pth" ++ ".metadata.json") :: acc) [] := by
  refine ⟨?_, ?_, fs_effects_filter ckpt1 _⟩
  · rw [train_model_fs, train_model_fs, fs_effects_filter, fs_effects_filter]
  · rw [train_model_fs, fs_effects_filter, train_model_fs_effects]

/-! ## Dataset partitioner (train.py lines 229-244, preprocess.py lines 80-98)

`get_data_loaders` sorts the two directory listings (`sorted(os.listdir(...))`),
pairs them positionally with `zip`, and calls sklearn's
`train_test_split(data_dicts, test_size=0.2, random_state=42)`.
`preprocess_train_val` sorts two globs, checks
`if not volumes or not masks: raise ValueError(...)`, and calls
`train_test_split(volumes, masks, test_size=0.1, random_state=42)`.
sklearn shuffles the index range with the seeded RNG's permutation and
takes the first `n_test = ceil(test_size * n)` shuffled entries as the
held-out side; it raises `ValueError` when the arrays have inconsistent
lengths or when a resulting side would be empty. The embedding is
parameterized by the index permutation `perm` (the fixed seed 42
determines one) and by the test fraction as a pair of naturals; file
names are elements of an arbitrary linear order. -/

/-- Python `sorted`. -/
def pySorted {α : Type} [LinearOrder α] (l : List α) : List α :=
  l.insertionSort (· ≤ ·)

/-- sklearn's `n_test = ceil(test_size * n_samples)` with
`test_size = tsNum / tsDen`. -/
def nTestOf (tsNum tsDen n : ℕ) : ℕ := (tsNum * n + (tsDen - 1)) / tsDen

/-- Indexing a list by a permutation of its index range: the shuffle
`X[permutation]` that sklearn performs with the seeded RNG. -/
def shuffleByPerm {α : Type} (perm : List ℕ) (l : List α) : List α :=
  perm.filterMap (fun i => l[i]?)

/-- Core of sklearn `train_test_split(..., shuffle=True)`: the shuffled
array is cut after the first `n_test` entries; the pair is
`(train, test)`. -/
def train_test_split_core {α : Type} (perm : List ℕ) (tsNum tsDen : ℕ)
    (l : List α) : List α × List α :=
  ((shuffleByPerm perm l).drop (nTestOf tsNum tsDen l.length),
   (shuffleByPerm perm l).take (nTestOf tsNum tsDen l.length))

/-- sklearn `train_test_split` on one array, with its validation: a
train or test side of size zero raises `ValueError`. -/
def train_test_split_single {α : Type} (perm : List ℕ) (tsNum tsDen : ℕ)
    (l : List α) : Except String (List α × List α) :=
  if nTestOf tsNum tsDen l.length = 0 ∨ l.length - nTestOf tsNum tsDen l.length = 0 then
    Except.error "the resulting train set or test set will be empty"
  else Except.ok (train_test_split_core perm tsNum tsDen l)

/-- sklearn `train_test_split` on two arrays: `check_consistent_length`
raises on unequal lengths, then the empty-side validation, then both
arrays are split by the same shuffled index range. -/
def train_test_split_two {α β : Type} (perm : List ℕ) (tsNum tsDen : ℕ)
    (xs : List α) (ys : List β) :
    Except String ((List α × List α) × (List β × List β)) :=
  if xs.length ≠ ys.length then
    Except.error "Found input variables with inconsistent numbers of samples"
  else if nTestOf tsNum tsDen xs.length = 0
      ∨ xs.length - nTestOf tsNum tsDen xs.length = 0 then
    Except.error "the resulting train set or test set will be empty"
  else
    Except.ok (train_test_split_core perm tsNum tsDen xs,
               train_test_split_core perm tsNum tsDen ys)

/-- train.py lines 229-238: `images = sorted(os.listdir(data_dir))`,
`labels = sorted(os.listdir(labels_dir))`, and the `data_dicts`
comprehension over `zip(images, labels)` — purely positional pairing. -/
def get_data_loaders_pairs {α : Type} [LinearOrder α] (images labels : List α) :
    List (α × α) :=
  (pySorted images).zip (pySorted labels)

/-- train.py lines 229-244: the pairing followed by
`train_test_split(data_dicts, test_size=0.2, random_state=42)`;
the pair returned on success is `(train_data, val_data)`. -/
def get_data_loaders_split {α : Type} [LinearOrder α] (perm : List ℕ)
    (images labels : List α) : Except String (List (α × α) × List (α × α)) :=
  train_test_split_single perm 1 5 (get_data_loaders_pairs images labels)

/-- preprocess.py lines 80-89: sorted globs, the explicit emptiness
check (`ValueError`), then `train_test_split(volumes, masks,
test_size=0.1, random_state=42)`. -/
def preprocess_train_val_split {α : Type} [LinearOrder α] (perm : List ℕ)
    (volumes masks : List α) :
    Except String ((List α × List α) × (List α × List α)) :=
  if (pySorted volumes).isEmpty ∨ (pySorted masks).isEmpty then
    Except.error "No valid training image or label files found."
  else train_test_split_two perm 1 10 (pySorted volumes) (pySorted masks)

/-- Whether a fallible computation succeeded. -/
def isOkE {ε α : Type} : Except ε α → Bool
  | .ok _ => true
  | .error _ => false

lemma pySorted_length {α : Type} [LinearOrder α] (l : List α) :
    (pySorted l).length = l.length :=
  (List.perm_insertionSort _ l).length_eq

lemma pySorted_eq_nil_iff {α : Type} [LinearOrder α] (l : List α) :
    pySorted l = [] ↔ l = [] := by
  constructor
  · intro h
    have hlen := pySorted_length l
    rw [h] at hlen
    exact List.length_eq_zero.mp hlen.symm
  · intro h
    rw [h]
    rfl

lemma pySorted_eq_of_perm {α : Type} [LinearOrder α] {l₁ l₂ : List α}
    (h : l₁.Perm l₂) : pySorted l₁ = pySorted l₂ := by
  haveI : IsAntisymm α (· ≤ ·) := ⟨fun a b h1 h2 => le_antisymm h1 h2⟩
  haveI : IsTotal α (· ≤ ·) := ⟨fun a b => le_total a b⟩
  haveI : IsTrans α (· ≤ ·) := ⟨fun a b c h1 h2 => le_trans h1 h2⟩
  exact List.eq_of_perm_of_sorted
    ((List.perm_insertionSort _ l₁).trans (h.trans (List.perm_insertionSort _ l₂).symm))
    (List.sorted_insertionSort _ l₁)
    (List.sorted_insertionSort _ l₂)

lemma filterMap_getElem_range {α : Type} (l : List α) :
    (List.range l.length).filterMap (fun i => l[i]?) = l := by
  induction l with
  | nil => rfl
  | cons a t ih =>
    rw [List.length_cons, List.range_succ_eq_map, List.filterMap_cons,
      List.getElem?_cons_zero, List.filterMap_map]
    have hcomp : ((fun i => (a :: t)[i]?) ∘ Nat.succ) = fun i => t[i]? := by
      funext i
      simp [List.getElem?_cons_succ]
    rw [hcomp, ih]

lemma shuffleByPerm_perm {α : Type} (perm : List ℕ) (l : List α)
    (hp : perm.Perm (List.range l.length)) : (shuffleByPerm perm l).Perm l := by
  have h := hp.filterMap (fun i => l[i]?)
  rw [filterMap_getElem_range] at h
  exact h

/-- C3: the partitioner of `get_data_loaders` splits the (explicitly
sorted, positionally zipped) input pairs so that the train and held-out
parts have lengths summing to N, together they are a permutation of the
input (hence, for duplicate-free inputs, disjoint), and the partition is
a deterministic function of the seed-determined index permutation and
the sorted input — listings that are permutations of each other (any
filesystem enumeration order) yield the identical partition. -/
theorem c3_partitioner_deterministic_split {α : Type} [LinearOrder α]
    (images labels images2 labels2 : List α) (perm : List ℕ)
    (hp : perm.Perm (List.range (get_data_loaders_pairs images labels).length))
    (hnd : (get_data_loaders_pairs images labels).Nodup)
    (hi : images.Perm images2) (hl : labels.Perm labels2) :
    (train_test_split_core perm 1 5 (get_data_loaders_pairs images labels)).1.length
      + (train_test_split_core perm 1 5 (get_data_loaders_pairs images labels)).2.length
      = (get_data_loaders_pairs images labels).length ∧
    ((train_test_split_core perm 1 5 (get_data_loaders_pairs images labels)).2
      ++ (train_test_split_core perm 1 5 (get_data_loaders_pairs images labels)).1).Perm
      (get_data_loaders_pairs images labels) ∧
    (train_test_split_core perm 1 5 (get_data_loaders_pairs images labels)).1.Disjoint
      (train_test_split_core perm 1 5 (get_data_loaders_pairs images labels)).2 ∧
    get_data_loaders_pairs images2 labels2 = get_data_loaders_pairs images labels := by
  have hperm : (shuffleByPerm perm (get_data_loaders_pairs images labels)).Perm
      (get_data_loaders_pairs images labels) :=
    shuffleByPerm_perm perm _ hp
  refine ⟨?_, ?_, ?_, ?_⟩
  · simp only [train_test_split_core, List.length_drop, List.length_take, hperm.length_eq]
    omega
  · simp only [train_test_split_core]
    rw [List.take_append_drop]
    exact hperm
  · have hnodup : (shuffleByPerm perm (get_data_loaders_pairs images labels)).Nodup :=
      hperm.nodup_iff.mpr hnd
    simp only [train_test_split_core]
    exact (List.disjoint_take_drop hnodup le_rfl).symm
  · rw [get_data_loaders_pairs, get_data_loaders_pairs,
      pySorted_eq_of_perm hi, pySorted_eq_of_perm hl]

/-- Witness for C3, on concrete listings of two files each (file names
as naturals), with the reversed enumeration orders. -/
theorem c3_partitioner_deterministic_split_witness :
    ([1, 0].Perm (List.range (get_data_loaders_pairs ([2, 1] : List ℕ) [4, 3]).length)) ∧
    (get_data_loaders_pairs ([2, 1] : List ℕ) [4, 3]).Nodup ∧
    (([2, 1] : List ℕ).Perm [1, 2]) ∧
    (train_test_split_core [1, 0] 1 5 (get_data_loaders_pairs ([2, 1] : List ℕ) [4, 3])).1.length
      + (train_test_split_core [1, 0] 1 5 (get_data_loaders_pairs ([2, 1] : List ℕ) [4, 3])).2.length
      = (get_data_loaders_pairs ([2, 1] : List ℕ) [4, 3]).length ∧
    get_data_loaders_pairs ([1, 2] : List ℕ) [3, 4]
      = get_data_loaders_pairs ([2, 1] : List ℕ) [4, 3] := by
  have hp : [1, 0].Perm (List.range (get_data_loaders_pairs ([2, 1] : List ℕ) [4, 3]).length) := by
    decide
  have hnd : (get_data_loaders_pairs ([2, 1] : List ℕ) [4, 3]).Nodup := by decide
  have hi : ([2, 1] : List ℕ).Perm [1, 2] := by decide
  have hl : ([4, 3] : List ℕ).Perm [3, 4] := by decide
  obtain ⟨h1, -, -, h4⟩ :=
    c3_partitioner_deterministic_split [2, 1] [4, 3] [1, 2] [3, 4] [1, 0] hp hnd hi hl
  exact ⟨hp, hnd, hi, h1, h4⟩

lemma zip_getElem_opt {α β : Type} (l1 : List α) (l2 : List β) :
    ∀ i : ℕ, (l1.zip l2)[i]?
      = (l1[i]?).bind (fun a => (l2[i]?).map (fun b => (a, b))) := by
  induction l1 generalizing l2 with
  | nil => intro i; simp
  | cons a t ih =>
    intro i
    cases l2 with
    | nil => simp
    | cons b u =>
      cases i with
      | zero => simp
      | succ n => simpa using ih u n

/-- C7: `get_data_loaders` pairs the i-th sorted image file with the
i-th sorted label file — purely positional pairing that silently
truncates the longer listing to the shorter one (length = min), with no
error raised for mismatched listings: the split succeeds precisely when
at least two pairs remain, regardless of whether the listings match. -/
theorem c7_positional_pairing_truncates {α : Type} [LinearOrder α]
    (images labels : List α) (perm : List ℕ) :
    (get_data_loaders_pairs images labels).length = min images.length labels.length ∧
    (∀ i : ℕ, (get_data_loaders_pairs images labels)[i]?
        = ((pySorted images)[i]?).bind
            (fun a => ((pySorted labels)[i]?).map (fun b => (a, b)))) ∧
    (isOkE (get_data_loaders_split perm images labels) = true
      ↔ 2 ≤ min images.length labels.length) := by
  have hlen : (get_data_loaders_pairs images labels).length
      = min images.length labels.length := by
    rw [get_data_loaders_pairs, List.length_zip, pySorted_length, pySorted_length]
  refine ⟨hlen, ?_, ?_⟩
  · intro i
    exact zip_getElem_opt (pySorted images) (pySorted labels) i
  · rw [get_data_loaders_split, train_test_split_single]
    by_cases hcond : nTestOf 1 5 (get_data_loaders_pairs images labels).length = 0
        ∨ (get_data_loaders_pairs images labels).length
            - nTestOf 1 5 (get_data_loaders_pairs images labels).length = 0
    · rw [if_pos hcond]
      refine iff_of_false (by simp [isOkE]) ?_
      rw [← hlen]
      unfold nTestOf at hcond
      omega
    · rw [if_neg hcond]
      refine iff_of_true rfl ?_
      rw [← hlen]
      unfold nTestOf at hcond
      omega

/-- Witness for C7: on the concrete mismatched listings `[5, 6, 7]` and
`[8, 9]` the pairing is `[(5, 8), (6, 9)]`, of length `min 3 2 = 2`,
and the partitioner succeeds. -/
theorem c7_positional_pairing_truncates_witness :
    (get_data_loaders_pairs ([5, 6, 7] : List ℕ) [8, 9]).length = min 3 2 ∧
    (get_data_loaders_pairs ([5, 6, 7] : List ℕ) [8, 9])[0]?
      = ((pySorted ([5, 6, 7] : List ℕ))[0]?).bind
          (fun a => ((pySorted ([8, 9] : List ℕ))[0]?).map (fun b => (a, b))) ∧
    (2 ≤ min ([5, 6, 7] : List ℕ).length ([8, 9] : List ℕ).length) ∧
    isOkE (get_data_loaders_split [1, 0] ([5, 6, 7] : List ℕ) [8, 9]) = true := by
  obtain ⟨h1, h2, h3⟩ := c7_positional_pairing_truncates ([5, 6, 7] : List ℕ) [8, 9] [1, 0]
  exact ⟨h1, h2 0, by decide, h3.mpr (by decide)⟩

/-- C4 counterexample: `get_data_loaders` — a partitioner entry point —
does not fail on image and label lists of different lengths: with three
images and two labels (and the identity-free shuffle `[1, 0]`) the
partition succeeds. -/
theorem c4_partitioner_error_counterexample :
    ([5, 6, 7] : List ℕ).length ≠ ([8, 9] : List ℕ).length ∧
    isOkE (get_data_loaders_split [1, 0] ([5, 6, 7] : List ℕ) [8, 9]) = true := by
  exact ⟨by decide, by decide⟩

/-- C4 (amended): only `preprocess_train_val` validates its input lists:
it fails exactly when either list is empty (its own `ValueError`), when
the lists differ in length (the library's consistency check), or when
only one sample remains (the library's empty-train check);
`get_data_loaders` performs no validation of its own — mismatched
listings are silently truncated by `zip` and its split succeeds
whenever at least two pairs remain. -/
theorem c4_partitioner_error_conditions {α : Type} [LinearOrder α]
    (perm : List ℕ) (volumes masks images labels : List α) :
    (isOkE (preprocess_train_val_split perm volumes masks) = true ↔
      (volumes ≠ [] ∧ masks ≠ [] ∧ volumes.length = masks.length
        ∧ 2 ≤ volumes.length)) ∧
    (isOkE (get_data_loaders_split perm images labels) = true ↔
      2 ≤ min images.length labels.length) := by
  constructor
  · rw [preprocess_train_val_split]
    by_cases h1 : (pySorted volumes).isEmpty ∨ (pySorted masks).isEmpty
    · rw [if_pos h1]
      refine iff_of_false (by simp [isOkE]) ?_
      rintro ⟨hv, hm, -, -⟩
      rcases h1 with h | h
      · exact hv ((pySorted_eq_nil_iff volumes).mp (List.isEmpty_iff.mp h))
      · exact hm ((pySorted_eq_nil_iff masks).mp (List.isEmpty_iff.mp h))
    · rw [if_neg h1]
      push_neg at h1
      have hv : volumes ≠ [] := by
        intro h
        exact absurd (List.isEmpty_iff.mpr ((pySorted_eq_nil_iff volumes).mpr h)) h1.1
      have hm : masks ≠ [] := by
        intro h
        exact absurd (List.isEmpty_iff.mpr ((pySorted_eq_nil_iff masks).mpr h)) h1.2
      rw [train_test_split_two]
      by_cases h2 : (pySorted volumes).length ≠ (pySorted masks).length
      · rw [if_pos h2]
        refine iff_of_false (by simp [isOkE]) ?_
        rintro ⟨-, -, hlen, -⟩
        rw [pySorted_length, pySorted_length] at h2
        exact h2 hlen
      · rw [if_neg h2]
        rw [pySorted_length, pySorted_length] at h2
        push_neg at h2
        have hvlen : volumes.length ≠ 0 := fun h => hv (List.length_eq_zero.mp h)
        by_cases h3 : nTestOf 1 10 (pySorted volumes).length = 0
            ∨ (pySorted volumes).length - nTestOf 1 10 (pySorted volumes).length = 0
        · rw [if_pos h3]
          refine iff_of_false (by simp [isOkE]) ?_
          rintro ⟨-, -, -, htwo⟩
          rw [pySorted_length] at h3
          unfold nTestOf at h3
          omega
        · rw [if_neg h3]
          rw [pySorted_length] at h3
          unfold nTestOf at h3
          exact iff_of_true rfl ⟨hv, hm, h2, by omega⟩
  · rw [get_data_loaders_split, train_test_split_single]
    have hlen : (get_data_loaders_pairs images labels).length
        = min images.length labels.length := by
      rw [get_data_loaders_pairs, List.length_zip, pySorted_length, pySorted_length]
    by_cases hcond : nTestOf 1 5 (get_data_loaders_pairs images labels).length = 0
        ∨ (get_data_loaders_pairs images labels).length
            - nTestOf 1 5 (get_data_loaders_pairs images labels).length = 0
    · rw [if_pos hcond]
      refine iff_of_false (by simp [isOkE]) ?_
      rw [hlen] at hcond
      unfold nTestOf at hcond
      omega
    · rw [if_neg hcond]
      rw [hlen] at hcond
      unfold nTestOf at hcond
      exact iff_of_true rfl (by omega)

/-! ## Inference output naming (inference.py lines 101-108)

```
base_name = os.path.basename(input_image_path)
if base_name.endswith(".nii.gz"):
    pred_name = base_name.replace(".nii.gz", "_pred.nii.gz")
else:
    pred_name = os.path.splitext(base_name)[0] + "_pred.nii.gz"
```

Python's `str.replace` rewrites every non-overlapping occurrence left to
right; `os.path.splitext` cuts at the last dot unless the characters
before it are all dots. Base names (no path separator) are modelled as
`List Char`. -/

/-- Python `str.endswith(suf)`. -/
def pyEndsWith (suf s : List Char) : Bool := s.drop (s.length - suf.length) == suf

/-- Scans for an occurrence of `".nii.gz"` starting at any position. -/
def hasMatchNiiGz : List Char → Bool
  | [] => false
  | c :: cs => ((c :: cs).take 7 == ".nii.gz".toList) || hasMatchNiiGz cs

/-- Python `str.replace(".nii.gz", "_pred.nii.gz")`, fuelled so the
recursion is structural (the fuel is the input length, always enough). -/
def replaceNiiGzAux : ℕ → List Char → List Char
  | 0, s => s
  | _ + 1, [] => []
  | fuel + 1, c :: cs =>
    if (c :: cs).take 7 = ".nii.gz".toList then
      "_pred.nii.gz".toList ++ replaceNiiGzAux fuel ((c :: cs).drop 7)
    else c :: replaceNiiGzAux fuel cs

/-- Python `base_name.replace(".nii.gz", "_pred.nii.gz")`. -/
def replaceNiiGz (s : List Char) : List Char := replaceNiiGzAux s.length s

/-- Index of the last `'.'` of a name, if any. -/
def lastDotIdx : List Char → Option ℕ
  | [] => none
  | c :: cs =>
    match lastDotIdx cs with
    | some i => some (i + 1)
    | none => if c = '.' then some 0 else none

/-- `os.path.splitext(base)[0]` for a base name: everything before the
last dot, except that a name whose characters before that dot are all
dots (e.g. `".bashrc"`, `"..."`) has no extension. -/
def splitextRoot (s : List Char) : List Char :=
  match lastDotIdx s with
  | none => s
  | some i => if (s.take i).all (fun c => c = '.') then s else s.take i

/-- inference.py lines 101-106: the output file name computed from the
input base name. -/
def pred_name (base : List Char) : List Char :=
  if pyEndsWith ".nii.gz".toList base then replaceNiiGz base
  else splitextRoot base ++ "_pred.nii.gz".toList

/-- Following the spec's words (C6), for comparison with the code:
"strips the input's extension and appends a fixed suffix (`_pred`)
before re-attaching the original ... extension" — the original
extension (".nii.gz" for compressed volumes, otherwise the splitext
extension) is re-attached after `_pred`. -/
def spec_pred_name (base : List Char) : List Char :=
  if pyEndsWith ".nii.gz".toList base then
    base.take (base.length - 7) ++ "_pred".toList ++ ".nii.gz".toList
  else
    splitextRoot base ++ "_pred".toList ++ base.drop (splitextRoot base).length

/-- C6 counterexample: for the uncompressed volume name `case_01.nii`
the code appends the fixed suffix `_pred.nii.gz` — it does not re-attach
the original extension `.nii` as the claim states; the two disagree. -/
theorem c6_output_naming_counterexample :
    pred_name "case_01.nii".toList = "case_01_pred.nii.gz".toList ∧
    spec_pred_name "case_01.nii".toList = "case_01_pred.nii".toList ∧
    pred_name "case_01.nii".toList ≠ spec_pred_name "case_01.nii".toList := by
  exact ⟨by decide, by decide, by decide⟩

lemma replaceNiiGzAux_nil (fuel : ℕ) : replaceNiiGzAux fuel [] = [] := by
  cases fuel <;> rfl

lemma replaceNiiGzAux_fuel : ∀ (f₁ : ℕ) (s : List Char) (f₂ : ℕ),
    s.length ≤ f₁ → s.length ≤ f₂ → replaceNiiGzAux f₁ s = replaceNiiGzAux f₂ s := by
  intro f₁
  induction f₁ with
  | zero =>
    intro s f₂ h1 h2
    have hs : s = [] := List.eq_nil_of_length_eq_zero (by omega)
    subst hs
    rw [replaceNiiGzAux_nil, replaceNiiGzAux_nil]
  | succ g ih =>
    intro s f₂ h1 h2
    cases s with
    | nil => rw [replaceNiiGzAux_nil, replaceNiiGzAux_nil]
    | cons c cs =>
      rw [List.length_cons] at h1 h2
      cases f₂ with
      | zero => omega
      | succ f =>
        rw [replaceNiiGzAux, replaceNiiGzAux]
        by_cases hc : (c :: cs).take 7 = ".nii.gz".toList
        · rw [if_pos hc, if_pos hc]
          congr 1
          apply ih
          · simp only [List.length_drop, List.length_cons]
            omega
          · simp only [List.length_drop, List.length_cons]
            omega
        · rw [if_neg hc, if_neg hc]
          congr 1
          apply ih
          · omega
          · omega

lemma replaceNiiGzAux_nomatch : ∀ (s : List Char) (fuel : ℕ),
    hasMatchNiiGz s = false → replaceNiiGzAux fuel s = s := by
  intro s
  induction s with
  | nil => intro fuel _; exact replaceNiiGzAux_nil fuel
  | cons c cs ih =>
    intro fuel h
    cases fuel with
    | zero => rfl
    | succ f =>
      rw [hasMatchNiiGz, Bool.or_eq_false_iff] at h
      rw [replaceNiiGzAux, if_neg (beq_eq_false_iff_ne.mp h.1), ih f h.2]

lemma replaceNiiGzAux_step (stem rest : List Char) : ∀ fuel : ℕ,
    stem.length + 7 + rest.length ≤ fuel →
    hasMatchNiiGz (stem ++ ".nii.g".toList) = false →
    replaceNiiGzAux fuel (stem ++ ".nii.gz".toList ++ rest)
      = stem ++ "_pred.nii.gz".toList ++ replaceNiiGzAux rest.length rest := by
  induction stem with
  | nil =>
    intro fuel hf _
    simp only [List.length_nil] at hf
    cases fuel with
    | zero => omega
    | succ f =>
      rw [List.nil_append, List.nil_append]
      have hc : (".nii.gz".toList ++ rest).take 7 = ".nii.gz".toList :=
        List.take_left' rfl
      have hd : (".nii.gz".toList ++ rest).drop 7 = rest :=
        List.drop_left' rfl
      rw [show ".nii.gz".toList ++ rest = '.' :: ("nii.gz".toList ++ rest) from rfl]
        at hc hd
      rw [show ".nii.gz".toList ++ rest = '.' :: ("nii.gz".toList ++ rest) from rfl,
        replaceNiiGzAux, if_pos hc, hd]
      congr 1
      exact replaceNiiGzAux_fuel f rest rest.length (by omega) (le_refl _)
  | cons c stem ih =>
    intro fuel hf h
    rw [List.length_cons] at hf
    cases fuel with
    | zero => omega
    | succ f =>
      rw [List.cons_append] at h
      rw [hasMatchNiiGz, Bool.or_eq_false_iff] at h
      have hL : (c :: stem) ++ ".nii.gz".toList ++ rest
          = c :: (stem ++ ".nii.gz".toList ++ rest) := by simp
      have hR : (c :: stem) ++ "_pred.nii.gz".toList ++ replaceNiiGzAux rest.length rest
          = c :: (stem ++ "_pred.nii.gz".toList ++ replaceNiiGzAux rest.length rest) := by
        simp
      rw [hL, hR, replaceNiiGzAux]
      have hlen6 : (stem ++ ".nii.g".toList).length = stem.length + 6 := by
        rw [List.length_append]
        rfl
      have hz : stem ++ ".nii.gz".toList ++ rest
          = (stem ++ ".nii.g".toList) ++ ('z' :: rest) := by
        rw [show ".nii.gz".toList = ".nii.g".toList ++ ['z'] from rfl]
        simp
      have htk : (c :: (stem ++ ".nii.gz".toList ++ rest)).take 7
          = (c :: (stem ++ ".nii.g".toList)).take 7 := by
        rw [hz, show c :: ((stem ++ ".nii.g".toList) ++ ('z' :: rest))
            = (c :: (stem ++ ".nii.g".toList)) ++ ('z' :: rest) from rfl,
          List.take_append_eq_append_take,
          show (c :: (stem ++ ".nii.g".toList)).length = stem.length + 7 by
            rw [List.length_cons, hlen6],
          show 7 - (stem.length + 7) = 0 by omega, List.take_zero, List.append_nil]
      have hcond : ¬ ((c :: (stem ++ ".nii.gz".toList ++ rest)).take 7
          = ".nii.gz".toList) := by
        rw [htk]
        exact beq_eq_false_iff_ne.mp h.1
      rw [if_neg hcond, ih f (by omega) h.2]

/-- C6 (amended): if the input name ends in `.nii.gz`, Python's
`str.replace` rewrites every non-overlapping occurrence of `.nii.gz`
left to right into `_pred.nii.gz` (characterized by the
leftmost-occurrence equation and the no-occurrence identity below); for
the typical name whose only occurrence is the suffix this strips the
extension, appends `_pred` and re-attaches the original
compressed-volume extension (`case_01.nii.gz ↦ case_01_pred.nii.gz`),
while `a.nii.gz.b.nii.gz ↦ a_pred.nii.gz.b_pred.nii.gz`; if the name
does not end in `.nii.gz`, its last extension is stripped and the fixed
suffix `_pred.nii.gz` is appended, without re-attaching the original
extension (`case_01.nii ↦ case_01_pred.nii.gz`). -/
theorem c6_output_naming_amended (stem rest : List Char)
    (h : hasMatchNiiGz (stem ++ ".nii.g".toList) = false) :
    (∀ base : List Char, pyEndsWith ".nii.gz".toList base = true →
        pred_name base = replaceNiiGz base) ∧
    replaceNiiGz (stem ++ ".nii.gz".toList ++ rest)
      = stem ++ "_pred.nii.gz".toList ++ replaceNiiGz rest ∧
    (∀ s : List Char, hasMatchNiiGz s = false → replaceNiiGz s = s) ∧
    pred_name (stem ++ ".nii.gz".toList) = stem ++ "_pred.nii.gz".toList ∧
    (∀ base : List Char, pyEndsWith ".nii.gz".toList base = false →
        pred_name base = splitextRoot base ++ "_pred.nii.gz".toList) ∧
    pred_name "case_01.nii.gz".toList = "case_01_pred.nii.gz".toList ∧
    pred_name "a.nii.gz.b.nii.gz".toList = "a_pred.nii.gz.b_pred.nii.gz".toList ∧
    pred_name "case_01.nii".toList = "case_01_pred.nii.gz".toList := by
  have hlen : (stem ++ ".nii.gz".toList ++ rest).length
      = stem.length + 7 + rest.length := by
    rw [List.length_append, List.length_append,
      show (".nii.gz".toList).length = 7 from rfl]
  refine ⟨?_, ?_, ?_, ?_, ?_, by decide, by decide, by decide⟩
  · intro base hbase
    rw [pred_name, if_pos hbase]
  · rw [replaceNiiGz, replaceNiiGz,
      replaceNiiGzAux_step stem rest _ (le_of_eq hlen.symm) h]
  · intro s hs
    rw [replaceNiiGz, replaceNiiGzAux_nomatch s s.length hs]
  · have hsub : (stem ++ ".nii.gz".toList).length - (".nii.gz".toList).length
        = stem.length := by
      rw [List.length_append, show (".nii.gz".toList).length = 7 from rfl]
      omega
    have hsuf : pyEndsWith ".nii.gz".toList (stem ++ ".nii.gz".toList) = true := by
      rw [pyEndsWith, hsub, List.drop_left, beq_self_eq_true]
    rw [pred_name, if_pos hsuf, replaceNiiGz]
    have hstep := replaceNiiGzAux_step stem [] (stem ++ ".nii.gz".toList).length
      (by
        rw [List.length_append, show (".nii.gz".toList).length = 7 from rfl,
          List.length_nil])
      h
    simp only [List.append_nil, List.length_nil, replaceNiiGzAux_nil] at hstep
    exact hstep
  · intro base hbase
    rw [pred_name, if_neg (by rw [hbase]; exact Bool.false_ne_true)]

/-- Witness for C6 (amended), at the concrete stem `a` with remainder
`.b.nii.gz` (two occurrences of `.nii.gz`) and the concrete
non-`.nii.gz` name `case_01.mha`. -/
theorem c6_output_naming_amended_witness :
    hasMatchNiiGz ("a".toList ++ ".nii.g".toList) = false ∧
    replaceNiiGz ("a".toList ++ ".nii.gz".toList ++ ".b.nii.gz".toList)
      = "a".toList ++ "_pred.nii.gz".toList ++ replaceNiiGz ".b.nii.gz".toList ∧
    pred_name ("a".toList ++ ".nii.gz".toList) = "a".toList ++ "_pred.nii.gz".toList ∧
    pyEndsWith ".nii.gz".toList "case_01.mha".toList = false ∧
    pred_name "case_01.mha".toList
      = splitextRoot "case_01.mha".toList ++ "_pred.nii.gz".toList := by
  have h : hasMatchNiiGz ("a".toList ++ ".nii.g".toList) = false := by decide
  obtain ⟨-, h2, -, h4, h5, -, -, -⟩ :=
    c6_output_naming_amended "a".toList ".b.nii.gz".toList h
  exact ⟨h, h2, h4, by decide, h5 "case_01.mha".toList (by decide)⟩

/-! ## The `--channels` type callback (train.py lines 41-44)

`parser.add_argument('--channels', type=lambda s: list(map(int, s.split(','))))`
declares no `default=`, so argparse stores Python `None` when the flag is
omitted; when the flag is given, a non-integer token makes `int` raise
inside the type callback and argparse reports a parse-time error. -/

/-- Whitespace characters that Python strips around `int()`'s argument
(the ASCII ones; CLI channel tokens are ASCII). -/
def isPySpace (c : Char) : Bool :=
  c = ' ' || c = '\t' || c = '\n' || c = '\r' || c = '\x0b' || c = '\x0c'

/-- Strips surrounding whitespace, as `int()` does. -/
def stripWs (s : List Char) : List Char :=
  ((s.dropWhile isPySpace).reverse.dropWhile isPySpace).reverse

/-- A valid digit run of a Python integer literal: decimal digits with
single PEP 515 underscore separators strictly between digits. -/
def validUSDigits : List Char → Bool
  | [] => false
  | [c] => c.isDigit
  | c :: '_' :: cs2 => c.isDigit && validUSDigits cs2
  | c :: c2 :: cs2 => c.isDigit && validUSDigits (c2 :: cs2)

/-- Numeric value of a digit run (underscores skipped). -/
def usDigitsVal (ds : List Char) : ℕ :=
  (ds.filter (fun c => c ≠ '_')).foldl (fun acc c => 10 * acc + (c.toNat - 48)) 0

/-- Python `int(token)` in base 10: surrounding whitespace stripped,
then an optional sign, then decimal digits with single underscore
separators between digits (PEP 515); anything else raises `ValueError`.
Whitespace and digits are modelled over the ASCII range in which CLI
channel tokens lie. -/
def pyInt (t : List Char) : Option ℤ :=
  match stripWs t with
  | '+' :: ds => if validUSDigits ds then some (usDigitsVal ds) else none
  | '-' :: ds => if validUSDigits ds then some (-(usDigitsVal ds : ℤ)) else none
  | ds => if validUSDigits ds then some (usDigitsVal ds) else none

/-- Python `s.split(',')`. -/
def splitComma (l : List Char) : List (List Char) :=
  l.foldr (fun c acc =>
    if c = ',' then [] :: acc
    else
      match acc with
      | [] => [[c]]
      | g :: gs => (c :: g) :: gs) [[]]

/-- `list(map(intFn, tokens))` for an arbitrary integer-conversion
function `intFn`: `none` as soon as one token fails. -/
def mapTokens (intFn : List Char → Option ℤ) : List (List Char) → Option (List ℤ)
  | [] => some []
  | t :: ts =>
    match intFn t, mapTokens intFn ts with
    | some v, some vs => some (v :: vs)
    | _, _ => none

/-- The `--channels` argument as argparse processes it, parameterized by
the integer conversion (Python's builtin `int`): an exception in the
type callback becomes a parse-time error. -/
def parseChannelsWith (intFn : List Char → Option ℤ) (s : String) :
    Except String (List ℤ) :=
  match mapTokens intFn (splitComma s.toList) with
  | some vs => Except.ok vs
  | none => Except.error "argument --channels: invalid value"

/-- The `--channels` argument with the `int()` model above. -/
def parseChannelsArg : String → Except String (List ℤ) :=
  parseChannelsWith pyInt

/-- C8 counterexample: the `--channels` flag of the training driver has
no default value (argparse's implicit `None`), contradicting "every CLI
flag of the training driver has a default value"; it is the only such
flag. -/
theorem c8_channels_no_default_counterexample :
    ({ name := "channels", defaultVal := none } : CliFlag) ∈ trainFlags ∧
    (trainFlags.filter (fun f => f.defaultVal.isNone)).map CliFlag.name
      = ["channels"] := by
  exact ⟨by decide, by decide⟩

lemma mapTokens_isSome (intFn : List Char → Option ℤ) (ts : List (List Char)) :
    (mapTokens intFn ts).isSome = ts.all (fun t => (intFn t).isSome) := by
  induction ts with
  | nil => rfl
  | cons t ts ih =>
    rw [mapTokens, List.all_cons, ← ih]
    cases intFn t <;> cases mapTokens intFn ts <;> simp

/-- C8 (amended): every training-driver flag except `--channels` has an
explicit default (`--channels` defaults to Python `None`); a malformed
`channels` list is rejected at argument-parse time — for any integer
conversion (in particular Python's builtin `int`), argparse accepts the
flag exactly when the conversion accepts every comma-separated token,
so `"16,32,64"` and `"16, 3_2, 64"` (whitespace, underscore separator)
parse to `[16, 32, 64]` while `"16,32,x"` is a parse-time error. -/
theorem c8_flag_defaults_and_channels_parse
    (intFn : List Char → Option ℤ) (s : String) :
    (trainFlags.filter (fun f => f.defaultVal.isNone)).map CliFlag.name
      = ["channels"] ∧
    isOkE (parseChannelsWith intFn s)
      = (splitComma s.toList).all (fun t => (intFn t).isSome) ∧
    parseChannelsArg "16,32,64" = Except.ok [16, 32, 64] ∧
    parseChannelsArg "16, 3_2, 64" = Except.ok [16, 32, 64] ∧
    isOkE (parseChannelsArg "16,32,x") = false := by
  refine ⟨by decide, ?_, by rfl, by rfl, by rfl⟩
  rw [← mapTokens_isSome, parseChannelsWith]
  cases mapTokens intFn (splitComma s.toList) <;> rfl

end ValohaiMonai
